import Mathlib

/-!
Shallow embedding of the singly-linked string queue in `src/queue.c`.

Modelling conventions:
* A heap node (`list_ele_t`) is modelled as an identity (`id`, standing for the
  node's address) together with its owned value; `value = none` models a node
  whose `value` pointer is NULL.
* The queue's `head` pointer and the `next` links are modelled together as the
  list `chain`: the nodes reachable from `head`, in link order.  `tail` stores
  the id of the node the C `tail` pointer references (`none` for NULL) — it is
  kept separate from `chain` because the code can leave `tail` referencing a
  node that is no longer last.
* `size` is the C `int` counter, modelled as `Int`.
* Allocation is modelled by explicit success flags (`allocNode`, `allocValue`)
  and fresh node ids supplied by the caller.
* An operation whose C execution dereferences a NULL pointer, or whose
  pointer-level effect cannot be represented in the reachable-chain model
  (writing through a `tail` pointer that does not reference the last chain
  node), returns `none`.
* `size_t` arithmetic (`bufsize - 1` in `q_remove_head`) is modelled as
  arithmetic modulo `2 ^ 64`.
* The natural comparator `strnatcasecmp` is an external dependency of the
  code (its source is not part of this repository's core); following the spec
  it is treated as a parameter `cmp : String → String → Int` about which only
  the total-preorder contract is assumed.
-/

namespace Lab0

/-- Model of `list_ele_t`: node identity (address) plus owned value
(`none` = NULL `value` pointer). -/
structure list_ele_t where
  id : Nat
  value : Option String
deriving DecidableEq

/-- Model of `queue_t`: the chain reachable from `head`, the id the `tail`
pointer references, and the cached `size` counter. -/
structure queue_t where
  chain : List list_ele_t
  tail : Option Nat
  size : Int
deriving DecidableEq

/-- Model of `q_new`: fresh empty queue (`head = tail = NULL`, `size = 0`). -/
def q_new : queue_t := { chain := [], tail := none, size := 0 }

/-- Model of `q_insert_head`.  `allocNode`/`allocValue` are the outcomes of the
two `malloc` calls, `newId` the address of the fresh node.  Returns the queue
after the call together with the C return value. -/
def q_insert_head (q? : Option queue_t) (s : String) (allocNode allocValue : Bool)
    (newId : Nat) : Option queue_t × Bool :=
  match q? with
  | none => (none, false)
  | some q =>
    if allocNode = false then (some q, false)
    else if allocValue = false then (some q, false)
    else
      let newh : list_ele_t := { id := newId, value := some s }
      (some { chain := newh :: q.chain,
              tail := match q.tail with
                      | none => some newId
                      | some t => some t,
              size := q.size + 1 }, true)

/-- Model of `q_insert_tail`.  The C code runs `q->tail->next = newh`
unconditionally; when `tail` is NULL this dereferences a null pointer, and
when `tail` references a node other than the last chain node the write is not
representable in the reachable-chain model — both yield `none`. -/
def q_insert_tail (q? : Option queue_t) (s : String) (allocNode allocValue : Bool)
    (newId : Nat) : Option (Option queue_t × Bool) :=
  match q? with
  | none => some (none, false)
  | some q =>
    if allocNode = false then some (some q, false)
    else if allocValue = false then some (some q, false)
    else
      let newh : list_ele_t := { id := newId, value := some s }
      match q.tail with
      | none => none
      | some t =>
        match q.chain.getLast? with
        | none => none
        | some last =>
          if last.id = t then
            some (some { chain := q.chain ++ [newh],
                         tail := some newId,
                         size := q.size + 1 }, true)
          else none

/-- Cardinality of the C `size_t` type on the 64-bit target. -/
def SIZE_T_CARD : Nat := 2 ^ 64

/-- Model of the `size_t` expression `bufsize - 1`: subtraction of 1 modulo
`2 ^ 64`, which wraps to `2 ^ 64 - 1` when `bufsize = 0`. -/
def size_t_minus_one (bufsize : Nat) : Nat :=
  (bufsize + (SIZE_T_CARD - 1)) % SIZE_T_CARD

/-- Model of the truncating copy `strncpy(sp, value, n); sp[n] = 0` as seen
through the resulting C string: the first `n` characters of the value. -/
def strncpy_trunc (v : String) (n : Nat) : String := String.mk (v.data.take n)

/-- The copy branch of `q_remove_head` writes buffer indices `0` through
`bufsize - 1` (the `strncpy` region and the explicit terminator at
`sp[bufsize - 1]`, both with `size_t` wrap-around); it stays inside a buffer
of capacity `cap` exactly when the largest written index is below `cap`. -/
def removeHeadCopySafe (bufsize cap : Nat) : Prop :=
  size_t_minus_one bufsize < cap

/-- Model of `q_remove_head`.  `sp = true` means a destination buffer was
supplied; the third component is the string stored into it (`none` when no
buffer was supplied or no copy happened).  The stored string is the removed
value truncated to `bufsize - 1` (with `size_t` wrap) characters. -/
def q_remove_head (q? : Option queue_t) (sp : Bool) (bufsize : Nat) :
    Option queue_t × Bool × Option String :=
  match q? with
  | none => (none, false, none)
  | some q =>
    match q.chain with
    | [] => (some q, false, none)
    | x :: rest =>
      let out : Option String :=
        match x.value with
        | none => none
        | some v => if sp then some (strncpy_trunc v (size_t_minus_one bufsize)) else none
      let newTail : Option Nat := if q.tail = some x.id then none else q.tail
      (some { chain := rest, tail := newTail, size := q.size - 1 }, true, out)

/-- Model of `q_size`: 0 when the queue pointer is NULL or `head` is NULL,
else the cached counter. -/
def q_size (q? : Option queue_t) : Int :=
  match q? with
  | none => 0
  | some q =>
    match q.chain with
    | [] => 0
    | _ :: _ => q.size

/-- Model of `q_reverse`: reverses the links of the reachable chain, then sets
`tail` to the old head and `head` to the old last node. -/
def q_reverse (q? : Option queue_t) : Option queue_t :=
  match q? with
  | none => none
  | some q =>
    match q.chain with
    | [] => some q
    | h :: _ =>
      some { chain := q.chain.reverse, tail := some h.id, size := q.size }

/-- The §3 invariants of the spec, stated on the model: `size` caches the
number of reachable nodes, `tail` references the last reachable node (NULL on
an empty queue), node identities are distinct, and every chained node owns a
present value. -/
def wellFormed (q : queue_t) : Prop :=
  q.size = q.chain.length ∧
  q.tail = q.chain.getLast?.map list_ele_t.id ∧
  (q.chain.map list_ele_t.id).Nodup ∧
  ∀ x ∈ q.chain, x.value ≠ none

instance (q : queue_t) : Decidable (wellFormed q) := by
  unfold wellFormed; infer_instance

/-- Model of `__cmp_list_ele`, over an arbitrary string comparator `cmp`
(standing for `strnatcasecmp`): an absent value sorts greater than any present
value, two absent values compare equal. -/
def __cmp_list_ele (cmp : String → String → Int) (x y : list_ele_t) : Int :=
  match x.value, y.value with
  | none, none => 0
  | none, some _ => 1
  | some _, none => -1
  | some a, some b => cmp a b

/-- Model of `__merge`: the C dummy-head relinking loop, which takes the next
output node from `l` exactly when `t` is exhausted or `l` is non-empty with
`__cmp_list_ele l t <= 0`. -/
def __merge (cmp : String → String → Int) :
    List list_ele_t → List list_ele_t → List list_ele_t
  | [], t => t
  | x :: l, [] => x :: l
  | x :: l, y :: t =>
    if __cmp_list_ele cmp x y ≤ 0 then x :: __merge cmp l (y :: t)
    else y :: __merge cmp (x :: l) t

/-- Model of the inner carry loop of `__mergesort_bottomup`: starting at slot
0, merge the incoming run with each occupied slot (run as the left argument of
`__merge`, exactly as the C `result = __merge(result, arr[i])`), clearing it,
until an empty slot receives the accumulated run; if every slot was occupied
the run is stored into the last slot (the C `if (i == 32) i--;` case). -/
def __mergesort_carry (cmp : String → String → Int) (run : List list_ele_t) :
    List (Option (List list_ele_t)) → List (Option (List list_ele_t))
  | [] => []
  | none :: rest => some run :: rest
  | some c :: rest =>
    match rest with
    | [] => [some (__merge cmp run c)]
    | r :: rs => none :: __mergesort_carry cmp (__merge cmp run c) (r :: rs)

/-- Model of the input-consuming loop of `__mergesort_bottomup`: each node is
detached (`result->next = NULL`) as a run of length one and carried into the
slot array. -/
def __mergesort_scan (cmp : String → String → Int) :
    List list_ele_t → List (Option (List list_ele_t)) → List (Option (List list_ele_t))
  | [], arr => arr
  | x :: xs, arr => __mergesort_scan cmp xs (__mergesort_carry cmp [x] arr)

/-- Model of the final loop of `__mergesort_bottomup`: merge every remaining
occupied slot, in increasing slot order, into the result (result as the left
argument, as in the C `result = __merge(result, arr[i])`). -/
def __mergesort_collect (cmp : String → String → Int) (result : List list_ele_t) :
    List (Option (List list_ele_t)) → List list_ele_t
  | [] => result
  | none :: rest => __mergesort_collect cmp result rest
  | some c :: rest => __mergesort_collect cmp (__merge cmp result c) rest

/-- Model of `__mergesort_bottomup`: 32 initially empty slots, scan the input,
then collect the remaining runs. -/
def __mergesort_bottomup (cmp : String → String → Int) (head : List list_ele_t) :
    List list_ele_t :=
  __mergesort_collect cmp [] (__mergesort_scan cmp head (List.replicate 32 none))

/-- Model of `q_sort`: no-op when the queue pointer is NULL, `head` is NULL,
or `head == tail` (pointer comparison, i.e. equal node identity); otherwise
only `head` is reassigned to the sorted chain — `tail` and `size` are left
untouched, exactly as in the C code. -/
def q_sort (cmp : String → String → Int) (q? : Option queue_t) : Option queue_t :=
  match q? with
  | none => none
  | some q =>
    match q.chain with
    | [] => some q
    | h :: _ =>
      if q.tail = some h.id then some q
      else some { q with chain := __mergesort_bottomup cmp q.chain }

/-- Chains sorted in non-decreasing order under the node comparator. -/
abbrev ChainSorted (cmp : String → String → Int) (l : List list_ele_t) : Prop :=
  List.Pairwise (fun x y => __cmp_list_ele cmp x y ≤ 0) l

/-- Sample comparator (an arbitrary instantiation of the external natural
comparator's contract): compare strings by length. -/
def cmp_len (a b : String) : Int := (a.length : Int) - (b.length : Int)

/-- Sample comparator under which all strings tie. -/
def cmp_zero (_ _ : String) : Int := 0

/-- Multiset of nodes held in the pending-run slot array. -/
def slotContents : List (Option (List list_ele_t)) → List list_ele_t
  | [] => []
  | none :: rest => slotContents rest
  | some c :: rest => c ++ slotContents rest

/-- One queue-API call, with the outcomes of its `malloc` calls made explicit:
`insHead s a1 a2` and `insTail s a1 a2` carry the node and value allocation
outcomes, `remHead sp bufsize` carries whether a destination buffer was
supplied and its declared size. -/
inductive qop where
  | insHead : String → Bool → Bool → qop
  | insTail : String → Bool → Bool → qop
  | remHead : Bool → Nat → qop

/-- Run a sequence of queue-API calls against a queue, threading fresh node
ids and counting the calls that returned `true`, split into successful
inserts and successful removals; `none` when a call crashes. -/
def runOps : List qop → queue_t → Nat → Nat → Nat → Option (queue_t × Nat × Nat)
  | [], q, _, ins, rem => some (q, ins, rem)
  | op :: ops, q, nextId, ins, rem =>
    match op with
    | .insHead s a1 a2 =>
      match q_insert_head (some q) s a1 a2 nextId with
      | (some q', ok) => runOps ops q' (nextId + 1) (if ok then ins + 1 else ins) rem
      | (none, _) => none
    | .insTail s a1 a2 =>
      match q_insert_tail (some q) s a1 a2 nextId with
      | some (some q', ok) => runOps ops q' (nextId + 1) (if ok then ins + 1 else ins) rem
      | _ => none
    | .remHead sp bufsize =>
      match q_remove_head (some q) sp bufsize with
      | (some q', ok, _) => runOps ops q' nextId ins (if ok then rem + 1 else rem)
      | (none, _, _) => none

/-- Insert the given values at the tail, one by one, with all allocations
succeeding; `none` when a call crashes. -/
def insertAllTail : List String → queue_t → Nat → Option queue_t
  | [], q, _ => some q
  | v :: vs, q, nextId =>
    match q_insert_tail (some q) v true true nextId with
    | some (some q', true) => insertAllTail vs q' (nextId + 1)
    | _ => none

/-- Remove `n` elements from the head, collecting the strings copied out
(with a buffer large enough to avoid truncation); `none` when a removal
fails or copies nothing. -/
def removeAllHead : Nat → queue_t → Option (List String)
  | 0, _ => some []
  | n + 1, q =>
    match q_remove_head (some q) true (SIZE_T_CARD - 1) with
    | (some q', true, some v) =>
      match removeAllHead n q' with
      | some vs => some (v :: vs)
      | none => none
    | _ => none

/-- Round trip of the spec's §8 property: insert `vs` at the tail of a fresh
queue, then remove them all from the head. -/
def roundTrip (vs : List String) : Option (List String) :=
  match insertAllTail vs q_new 0 with
  | some q => removeAllHead vs.length q
  | none => none

/-- Concrete well-formed two-element queue whose chain order a
length-comparing sort will invert: values `"bb"` then `"a"`. -/
def qDemoSort : queue_t :=
  { chain := [{ id := 0, value := some "bb" }, { id := 1, value := some "a" }],
    tail := some 1, size := 2 }

/-- The queue state `q_sort` actually produces from `qDemoSort`: the chain is
sorted and `head` updated, but `tail` still references node 1, which is now
the first node, not the last. -/
def qDemoSorted : queue_t :=
  { chain := [{ id := 1, value := some "a" }, { id := 0, value := some "bb" }],
    tail := some 1, size := 2 }

/-- Concrete well-formed queue holding two distinct nodes with equal values,
in id order 1 then 2. -/
def qDemoEqual : queue_t :=
  { chain := [{ id := 1, value := some "a" }, { id := 2, value := some "a" }],
    tail := some 2, size := 2 }

theorem cmp_len_total : ∀ a b, cmp_len a b ≤ 0 ∨ cmp_len b a ≤ 0 := by
  intro a b; unfold cmp_len; omega

theorem cmp_len_trans : ∀ a b c, cmp_len a b ≤ 0 → cmp_len b c ≤ 0 → cmp_len a c ≤ 0 := by
  intro a b c; unfold cmp_len; omega

/-- Totality of the node comparator, inherited from the comparator contract;
the defensive NULL-value cases are total by construction. -/
theorem cmp_ele_total (cmp : String → String → Int)
    (hcmp : ∀ a b, cmp a b ≤ 0 ∨ cmp b a ≤ 0) :
    ∀ x y, __cmp_list_ele cmp x y ≤ 0 ∨ __cmp_list_ele cmp y x ≤ 0 := by
  intro x y
  unfold __cmp_list_ele
  cases hx : x.value <;> cases hy : y.value <;> simp
  exact hcmp _ _

/-- Transitivity of the node comparator, inherited from the comparator
contract. -/
theorem cmp_ele_trans (cmp : String → String → Int)
    (hcmp : ∀ a b c, cmp a b ≤ 0 → cmp b c ≤ 0 → cmp a c ≤ 0) :
    ∀ x y z, __cmp_list_ele cmp x y ≤ 0 → __cmp_list_ele cmp y z ≤ 0 →
      __cmp_list_ele cmp x z ≤ 0 := by
  intro x y z
  unfold __cmp_list_ele
  cases hx : x.value <;> cases hy : y.value <;> cases hz : z.value <;> simp
  exact hcmp _ _ _

/-- The merge loop outputs a permutation of its two inputs chained together. -/
theorem merge_perm (cmp : String → String → Int) :
    ∀ a b, (__merge cmp a b).Perm (a ++ b) := by
  intro a
  induction a with
  | nil => intro b; simp [__merge]
  | cons x l ihl =>
    intro b
    induction b with
    | nil => simp [__merge]
    | cons y t iht =>
      simp only [__merge]
      split
      · exact (ihl (y :: t)).cons x
      · exact (iht.cons y).trans ((List.Perm.swap x y _).trans (List.perm_middle.symm.cons x))

theorem mem_merge (cmp : String → String → Int) {z : list_ele_t} {a b : List list_ele_t} :
    z ∈ __merge cmp a b ↔ z ∈ a ∨ z ∈ b := by
  rw [(merge_perm cmp a b).mem_iff]
  simp

/-- Merging two sorted chains yields a sorted chain. -/
theorem merge_sorted (cmp : String → String → Int)
    (htot : ∀ a b, cmp a b ≤ 0 ∨ cmp b a ≤ 0)
    (htrans : ∀ a b c, cmp a b ≤ 0 → cmp b c ≤ 0 → cmp a c ≤ 0) :
    ∀ a b, ChainSorted cmp a → ChainSorted cmp b →
      ChainSorted cmp (__merge cmp a b) := by
  intro a
  induction a with
  | nil => intro b _ hb; simpa [__merge] using hb
  | cons x l ihl =>
    intro b ha hb
    induction b with
    | nil => simpa [__merge] using ha
    | cons y t iht =>
      simp only [__merge]
      split
      · rename_i hxy
        refine List.Pairwise.cons ?_ (ihl (y :: t) (List.pairwise_cons.mp ha).2 hb)
        intro z hz
        rcases (mem_merge cmp).mp hz with hzl | hzyt
        · exact (List.pairwise_cons.mp ha).1 z hzl
        · rcases List.mem_cons.mp hzyt with rfl | hzt
          · exact hxy
          · exact cmp_ele_trans cmp htrans x y z hxy
              ((List.pairwise_cons.mp hb).1 z hzt)
      · rename_i hxy
        have hyx : __cmp_list_ele cmp y x ≤ 0 :=
          (cmp_ele_total cmp htot x y).resolve_left hxy
        refine List.Pairwise.cons ?_ (iht (List.pairwise_cons.mp hb).2)
        intro z hz
        rcases (mem_merge cmp).mp hz with hzxl | hzt
        · rcases List.mem_cons.mp hzxl with rfl | hzl
          · exact hyx
          · exact cmp_ele_trans cmp htrans y x z hyx
              ((List.pairwise_cons.mp ha).1 z hzl)
        · exact (List.pairwise_cons.mp hb).1 z hzt

/-- The merge loop preserves the internal order of its left input. -/
theorem merge_sublist_left (cmp : String → String → Int) :
    ∀ a b : List list_ele_t, a.Sublist (__merge cmp a b) := by
  intro a
  induction a with
  | nil => intro b; simp [__merge]
  | cons x l ihl =>
    intro b
    induction b with
    | nil => simp [__merge]
    | cons y t iht =>
      simp only [__merge]
      split
      · exact (ihl (y :: t)).cons₂ x
      · exact iht.cons y

/-- The merge loop preserves the internal order of its right input. -/
theorem merge_sublist_right (cmp : String → String → Int) :
    ∀ a b : List list_ele_t, b.Sublist (__merge cmp a b) := by
  intro a
  induction a with
  | nil => intro b; simp [__merge]
  | cons x l ihl =>
    intro b
    induction b with
    | nil => simp [__merge]
    | cons y t iht =>
      simp only [__merge]
      split
      · exact (ihl (y :: t)).cons x
      · exact iht.cons₂ y

/-- Tie preference of the merge loop: a left node that compares
less-or-equal to a right node is emitted before it (the left chain must be
sorted).  With a tie this is exactly the `a`-before-`b` rule. -/
theorem merge_tie_pair (cmp : String → String → Int)
    (htrans : ∀ a b c, cmp a b ≤ 0 → cmp b c ≤ 0 → cmp a c ≤ 0) :
    ∀ a b, ChainSorted cmp a → ∀ x y, x ∈ a → y ∈ b →
      __cmp_list_ele cmp x y ≤ 0 → [x, y].Sublist (__merge cmp a b) := by
  intro a
  induction a with
  | nil => intro b _ x y hx; exact absurd hx (List.not_mem_nil x)
  | cons h l ihl =>
    intro b ha x y hx hy hxy
    induction b with
    | nil => exact absurd hy (List.not_mem_nil y)
    | cons k t iht =>
      simp only [__merge]
      split
      · rename_i hhk
        rcases List.mem_cons.mp hx with rfl | hxl
        · have hy' : y ∈ __merge cmp l (k :: t) := (mem_merge cmp).mpr (Or.inr hy)
          exact (List.singleton_sublist.mpr hy').cons₂ x
        · exact (ihl (k :: t) (List.pairwise_cons.mp ha).2 x y hxl hy hxy).cons h
      · rename_i hhk
        rcases List.mem_cons.mp hy with rfl | hyt
        · exfalso
          rcases List.mem_cons.mp hx with rfl | hxl
          · exact hhk hxy
          · exact hhk (cmp_ele_trans cmp htrans h x y
              ((List.pairwise_cons.mp ha).1 x hxl) hxy)
        · exact (iht hyt).cons k

theorem merge_nil_left (cmp : String → String → Int) (t : List list_ele_t) :
    __merge cmp [] t = t := by
  simp [__merge]

theorem merge_singleton_pair (cmp : String → String → Int) (a b : list_ele_t) :
    __merge cmp [a] [b] =
      if __cmp_list_ele cmp a b ≤ 0 then [a, b] else [b, a] := by
  by_cases h : __cmp_list_ele cmp a b ≤ 0 <;> simp [__merge, h]

theorem carry_length (cmp : String → String → Int) :
    ∀ arr run, (__mergesort_carry cmp run arr).length = arr.length := by
  intro arr
  induction arr with
  | nil => intro run; rfl
  | cons o rest ih =>
    intro run
    cases o with
    | none => rfl
    | some c =>
      cases rest with
      | nil => rfl
      | cons r rs => simpa [__mergesort_carry] using ih (__merge cmp run c)

theorem carry_contents_perm (cmp : String → String → Int) :
    ∀ arr run, arr ≠ [] →
      (slotContents (__mergesort_carry cmp run arr)).Perm (run ++ slotContents arr) := by
  intro arr
  induction arr with
  | nil => intro run h; exact absurd rfl h
  | cons o rest ih =>
    intro run _
    cases o with
    | none => simp [__mergesort_carry, slotContents]
    | some c =>
      cases rest with
      | nil =>
        simpa [__mergesort_carry, slotContents] using merge_perm cmp run c
      | cons r rs =>
        simp only [__mergesort_carry, slotContents]
        refine ((ih (__merge cmp run c) (by simp)).trans ?_)
        rw [← List.append_assoc]
        exact (merge_perm cmp run c).append_right _

theorem carry_sorted (cmp : String → String → Int)
    (htot : ∀ a b, cmp a b ≤ 0 ∨ cmp b a ≤ 0)
    (htrans : ∀ a b c, cmp a b ≤ 0 → cmp b c ≤ 0 → cmp a c ≤ 0) :
    ∀ arr run, (∀ c, some c ∈ arr → ChainSorted cmp c) → ChainSorted cmp run →
      ∀ c, some c ∈ __mergesort_carry cmp run arr → ChainSorted cmp c := by
  intro arr
  induction arr with
  | nil => intro run _ _ c hc; exact absurd hc (List.not_mem_nil _)
  | cons o rest ih =>
    intro run harr hrun c hc
    cases o with
    | none =>
      simp only [__mergesort_carry] at hc
      rcases List.mem_cons.mp hc with h | h
      · cases h; exact hrun
      · exact harr c (List.mem_cons_of_mem _ h)
    | some d =>
      have hd : ChainSorted cmp d := harr d (List.mem_cons_self _ _)
      cases rest with
      | nil =>
        simp only [__mergesort_carry] at hc
        rcases List.mem_cons.mp hc with h | h
        · cases h; exact merge_sorted cmp htot htrans run d hrun hd
        · exact absurd h (List.not_mem_nil _)
      | cons r rs =>
        simp only [__mergesort_carry] at hc
        rcases List.mem_cons.mp hc with h | h
        · exact absurd h (by simp)
        · exact ih (__merge cmp run d)
            (fun e he => harr e (List.mem_cons_of_mem _ he))
            (merge_sorted cmp htot htrans run d hrun hd) c h

theorem scan_contents_perm (cmp : String → String → Int) :
    ∀ input arr, arr ≠ [] →
      (slotContents (__mergesort_scan cmp input arr)).Perm (input ++ slotContents arr) := by
  intro input
  induction input with
  | nil => intro arr _; simp [__mergesort_scan]
  | cons x xs ih =>
    intro arr harr
    have hne : __mergesort_carry cmp [x] arr ≠ [] := by
      intro h
      have := carry_length cmp arr [x]
      rw [h] at this
      exact harr (List.eq_nil_of_length_eq_zero this.symm)
    simp only [__mergesort_scan]
    refine (ih _ hne).trans ?_
    have hcarry := carry_contents_perm cmp arr [x] harr
    exact (hcarry.append_left xs).trans List.perm_middle

theorem scan_sorted (cmp : String → String → Int)
    (htot : ∀ a b, cmp a b ≤ 0 ∨ cmp b a ≤ 0)
    (htrans : ∀ a b c, cmp a b ≤ 0 → cmp b c ≤ 0 → cmp a c ≤ 0) :
    ∀ input arr, (∀ c, some c ∈ arr → ChainSorted cmp c) →
      ∀ c, some c ∈ __mergesort_scan cmp input arr → ChainSorted cmp c := by
  intro input
  induction input with
  | nil => intro arr harr c hc; exact harr c hc
  | cons x xs ih =>
    intro arr harr c hc
    exact ih (__mergesort_carry cmp [x] arr)
      (carry_sorted cmp htot htrans arr [x] harr (List.pairwise_singleton _ x)) c hc

theorem collect_perm (cmp : String → String → Int) :
    ∀ arr result, (__mergesort_collect cmp result arr).Perm (result ++ slotContents arr) := by
  intro arr
  induction arr with
  | nil => intro result; simp [__mergesort_collect, slotContents]
  | cons o rest ih =>
    intro result
    cases o with
    | none => simpa [__mergesort_collect, slotContents] using ih result
    | some c =>
      simp only [__mergesort_collect, slotContents]
      refine (ih (__merge cmp result c)).trans ?_
      rw [← List.append_assoc]
      exact (merge_perm cmp result c).append_right _

theorem collect_sorted (cmp : String → String → Int)
    (htot : ∀ a b, cmp a b ≤ 0 ∨ cmp b a ≤ 0)
    (htrans : ∀ a b c, cmp a b ≤ 0 → cmp b c ≤ 0 → cmp a c ≤ 0) :
    ∀ arr result, ChainSorted cmp result → (∀ c, some c ∈ arr → ChainSorted cmp c) →
      ChainSorted cmp (__mergesort_collect cmp result arr) := by
  intro arr
  induction arr with
  | nil => intro result hres _; exact hres
  | cons o rest ih =>
    intro result hres harr
    cases o with
    | none =>
      exact ih result hres (fun c hc => harr c (List.mem_cons_of_mem _ hc))
    | some c =>
      exact ih (__merge cmp result c)
        (merge_sorted cmp htot htrans result c hres (harr c (List.mem_cons_self _ _)))
        (fun e he => harr e (List.mem_cons_of_mem _ he))

theorem slotContents_replicate_none : ∀ n, slotContents (List.replicate n none) = [] := by
  intro n
  induction n with
  | zero => rfl
  | succ k ih => simpa [List.replicate, slotContents] using ih

/-- The bottom-up merge sort outputs a permutation of its input chain: it
neither creates nor destroys nodes. -/
theorem mergesort_bottomup_perm (cmp : String → String → Int) (l : List list_ele_t) :
    (__mergesort_bottomup cmp l).Perm l := by
  unfold __mergesort_bottomup
  refine (collect_perm cmp _ []).trans ?_
  simp only [List.nil_append]
  refine (scan_contents_perm cmp l (List.replicate 32 none) (by simp)).trans ?_
  rw [slotContents_replicate_none 32, List.append_nil]

/-- The bottom-up merge sort outputs a chain sorted under the node
comparator, for any comparator satisfying the total-preorder contract. -/
theorem mergesort_bottomup_sorted (cmp : String → String → Int)
    (htot : ∀ a b, cmp a b ≤ 0 ∨ cmp b a ≤ 0)
    (htrans : ∀ a b c, cmp a b ≤ 0 → cmp b c ≤ 0 → cmp a c ≤ 0)
    (l : List list_ele_t) : ChainSorted cmp (__mergesort_bottomup cmp l) := by
  unfold __mergesort_bottomup
  refine collect_sorted cmp htot htrans _ [] (List.Pairwise.nil) ?_
  intro c hc
  refine scan_sorted cmp htot htrans l (List.replicate 32 none) ?_ c hc
  intro d hd
  exact absurd hd (by simp)

theorem q_insert_head_cases (q : queue_t) (s : String) (a1 a2 : Bool) (newId : Nat) :
    ∀ q' ok, q_insert_head (some q) s a1 a2 newId = (some q', ok) →
      (ok = false ∧ q' = q) ∨
      (ok = true ∧ q'.chain = { id := newId, value := some s } :: q.chain ∧
        q'.size = q.size + 1) := by
  intro q' ok h
  cases a1 with
  | false =>
    have h' : ((some q, false) : Option queue_t × Bool) = (some q', ok) := h
    injection h' with hq hok
    injection hq with hq
    exact Or.inl ⟨hok.symm, hq.symm⟩
  | true =>
    cases a2 with
    | false =>
      have h' : ((some q, false) : Option queue_t × Bool) = (some q', ok) := h
      injection h' with hq hok
      injection hq with hq
      exact Or.inl ⟨hok.symm, hq.symm⟩
    | true =>
      injection h with hq hok
      injection hq with hq
      exact Or.inr ⟨hok.symm, by rw [← hq], by rw [← hq]⟩

theorem q_insert_tail_cases (q : queue_t) (s : String) (a1 a2 : Bool) (newId : Nat) :
    ∀ q' ok, q_insert_tail (some q) s a1 a2 newId = some (some q', ok) →
      (ok = false ∧ q' = q) ∨
      (ok = true ∧ q'.chain = q.chain ++ [{ id := newId, value := some s }] ∧
        q'.size = q.size + 1) := by
  intro q' ok h
  cases a1 with
  | false =>
    have h' : (some (some q, false) : Option (Option queue_t × Bool)) = some (some q', ok) := h
    injection h' with h'
    injection h' with hq hok
    injection hq with hq
    exact Or.inl ⟨hok.symm, hq.symm⟩
  | true =>
    cases a2 with
    | false =>
      have h' : (some (some q, false) : Option (Option queue_t × Bool)) = some (some q', ok) := h
      injection h' with h'
      injection h' with hq hok
      injection hq with hq
      exact Or.inl ⟨hok.symm, hq.symm⟩
    | true =>
      have h' : (match q.tail with
          | none => none
          | some t =>
            match q.chain.getLast? with
            | none => none
            | some last =>
              if last.id = t then
                some (some { chain := q.chain ++ [{ id := newId, value := some s }],
                             tail := some newId,
                             size := q.size + 1 }, true)
              else none) = some (some q', ok) := h
      split at h'
      · exact Option.noConfusion h'
      · split at h'
        · exact Option.noConfusion h'
        · split at h'
          · injection h' with h'
            injection h' with hq hok
            injection hq with hq
            exact Or.inr ⟨hok.symm, by rw [← hq], by rw [← hq]⟩
          · exact Option.noConfusion h'

theorem q_remove_head_cases (q : queue_t) (sp : Bool) (bufsize : Nat) :
    ∀ q' ok out, q_remove_head (some q) sp bufsize = (some q', ok, out) →
      (ok = false ∧ q' = q ∧ q.chain = []) ∨
      (ok = true ∧ q'.chain = q.chain.tail ∧ q'.size = q.size - 1 ∧ q.chain ≠ []) := by
  intro q' ok out h
  cases hc : q.chain with
  | nil =>
    have hstep : q_remove_head (some q) sp bufsize = (some q, false, none) := by
      simp [q_remove_head, hc]
    rw [hstep] at h
    injection h with hq h2
    injection h2 with hok hout
    injection hq with hq
    exact Or.inl ⟨hok.symm, hq.symm, rfl⟩
  | cons x rest =>
    have hstep : q_remove_head (some q) sp bufsize =
        (some { chain := rest,
                tail := if q.tail = some x.id then none else q.tail,
                size := q.size - 1 }, true,
         match x.value with
         | none => none
         | some v => if sp then some (strncpy_trunc v (size_t_minus_one bufsize)) else none) := by
      simp only [q_remove_head, hc]
    rw [hstep] at h
    injection h with hq h2
    injection h2 with hok hout
    injection hq with hq
    exact Or.inr ⟨hok.symm, by rw [← hq]; rfl, by rw [← hq], List.cons_ne_nil x rest⟩

/-- Size bookkeeping invariant of the public operations: along any completed
run, the cached `size` tracks the chain length, and grows by exactly the
number of successful inserts minus successful removals. -/
theorem runOps_size : ∀ (ops : List qop) (q : queue_t) (nextId ins rem : Nat)
    (q' : queue_t) (ins' rem' : Nat),
    q.size = q.chain.length →
    runOps ops q nextId ins rem = some (q', ins', rem') →
    q'.size = q'.chain.length ∧
      q'.size = q.size + ((ins' : Int) - ins) - ((rem' : Int) - rem) := by
  intro ops
  induction ops with
  | nil =>
    intro q nextId ins rem q' ins' rem' hinv hrun
    have h' : (some (q, ins, rem) : Option (queue_t × Nat × Nat)) = some (q', ins', rem') := hrun
    injection h' with h'
    injection h' with h1 h2
    injection h2 with h2 h3
    rw [← h1, ← h2, ← h3]
    exact ⟨hinv, by ring⟩
  | cons op ops ih =>
    intro q nextId ins rem q' ins' rem' hinv hrun
    cases op with
    | insHead s a1 a2 =>
      rcases hstep : q_insert_head (some q) s a1 a2 nextId with ⟨oq, ok⟩
      cases oq with
      | none =>
        exfalso
        have : runOps (qop.insHead s a1 a2 :: ops) q nextId ins rem = none := by
          simp only [runOps]; rw [hstep]
        rw [this] at hrun
        exact Option.noConfusion hrun
      | some qm =>
        have hrun' : runOps ops qm (nextId + 1) (if ok then ins + 1 else ins) rem =
            some (q', ins', rem') := by
          rw [← hrun]; simp only [runOps]; rw [hstep]
        rcases q_insert_head_cases q s a1 a2 nextId qm ok hstep with
          ⟨hok, hqm⟩ | ⟨hok, hchain, hsize⟩
        · rw [hok] at hrun'
          obtain ⟨ha, hb⟩ := ih qm (nextId + 1) ins rem q' ins' rem'
            (by rw [hqm]; exact hinv) hrun'
          exact ⟨ha, by rw [hb, hqm]⟩
        · rw [hok] at hrun'
          have hinv' : qm.size = qm.chain.length := by
            rw [hsize, hchain, hinv]; simp
          obtain ⟨ha, hb⟩ := ih qm (nextId + 1) (ins + 1) rem q' ins' rem' hinv' hrun'
          refine ⟨ha, ?_⟩
          rw [hb, hsize]; push_cast; ring
    | insTail s a1 a2 =>
      cases hstep : q_insert_tail (some q) s a1 a2 nextId with
      | none =>
        exfalso
        have : runOps (qop.insTail s a1 a2 :: ops) q nextId ins rem = none := by
          simp only [runOps]; rw [hstep]
        rw [this] at hrun
        exact Option.noConfusion hrun
      | some res =>
        rcases res with ⟨oq, ok⟩
        cases oq with
        | none =>
          exfalso
          have : runOps (qop.insTail s a1 a2 :: ops) q nextId ins rem = none := by
            simp only [runOps]; rw [hstep]
          rw [this] at hrun
          exact Option.noConfusion hrun
        | some qm =>
          have hrun' : runOps ops qm (nextId + 1) (if ok then ins + 1 else ins) rem =
              some (q', ins', rem') := by
            rw [← hrun]; simp only [runOps]; rw [hstep]
          rcases q_insert_tail_cases q s a1 a2 nextId qm ok hstep with
            ⟨hok, hqm⟩ | ⟨hok, hchain, hsize⟩
          · rw [hok] at hrun'
            obtain ⟨ha, hb⟩ := ih qm (nextId + 1) ins rem q' ins' rem'
              (by rw [hqm]; exact hinv) hrun'
            exact ⟨ha, by rw [hb, hqm]⟩
          · rw [hok] at hrun'
            have hinv' : qm.size = qm.chain.length := by
              rw [hsize, hchain, hinv]; simp
            obtain ⟨ha, hb⟩ := ih qm (nextId + 1) (ins + 1) rem q' ins' rem' hinv' hrun'
            refine ⟨ha, ?_⟩
            rw [hb, hsize]; push_cast; ring
    | remHead sp bufsize =>
      rcases hstep : q_remove_head (some q) sp bufsize with ⟨oq, ok, out⟩
      cases oq with
      | none =>
        exfalso
        have : runOps (qop.remHead sp bufsize :: ops) q nextId ins rem = none := by
          simp only [runOps]; rw [hstep]
        rw [this] at hrun
        exact Option.noConfusion hrun
      | some qm =>
        have hrun' : runOps ops qm nextId ins (if ok then rem + 1 else rem) =
            some (q', ins', rem') := by
          rw [← hrun]; simp only [runOps]; rw [hstep]
        rcases q_remove_head_cases q sp bufsize qm ok out hstep with
          ⟨hok, hqm, _⟩ | ⟨hok, hchain, hsize, hne⟩
        · rw [hok] at hrun'
          obtain ⟨ha, hb⟩ := ih qm nextId ins rem q' ins' rem'
            (by rw [hqm]; exact hinv) hrun'
          exact ⟨ha, by rw [hb, hqm]⟩
        · rw [hok] at hrun'
          have hinv' : qm.size = qm.chain.length := by
            rw [hsize, hchain, hinv]
            cases hq : q.chain with
            | nil => exact absurd hq hne
            | cons z zs => simp [hq]
          obtain ⟨ha, hb⟩ := ih qm nextId ins (rem + 1) q' ins' rem' hinv' hrun'
          refine ⟨ha, ?_⟩
          rw [hb, hsize]; push_cast; ring

/-- Claim C1 (code demonstration): on the well-formed two-element queue
`qDemoSort`, `q_sort` reorders the chain and updates `head`, but leaves `tail`
referencing node 1 — which is now the first node — while the new last node is
node 0; the head/tail/size invariant is violated after the call. -/
theorem c1_sort_leaves_tail_stale :
    wellFormed qDemoSort ∧
    q_sort cmp_len (some qDemoSort) = some qDemoSorted ∧
    qDemoSorted.tail = some 1 ∧
    qDemoSorted.chain.getLast?.map list_ele_t.id = some 0 ∧
    ¬ wellFormed qDemoSorted := by
  have harr : List.replicate 32 (none : Option (List list_ele_t)) =
      [none, none, none, none, none, none, none, none,
       none, none, none, none, none, none, none, none,
       none, none, none, none, none, none, none, none,
       none, none, none, none, none, none, none, none] := rfl
  have hcmp : __cmp_list_ele cmp_len { id := 1, value := some "a" }
      { id := 0, value := some "bb" } ≤ 0 := by decide
  refine ⟨by decide, ?_, rfl, rfl, by decide⟩
  simp [q_sort, qDemoSort, qDemoSorted, __mergesort_bottomup, harr, __mergesort_scan,
        __mergesort_carry, __mergesort_collect, merge_singleton_pair, merge_nil_left, hcmp]

/-- Claim C2 (code demonstration): `q_insert_tail` on a fresh empty queue
(`head = tail = NULL`) executes `q->tail->next = newh` with `tail = NULL`;
the model maps this null-pointer dereference to `none` instead of a `true`
result with a one-element queue. -/
theorem c2_insert_tail_empty_null_deref :
    q_new.chain = [] ∧ q_new.tail = none ∧
    q_insert_tail (some q_new) "a" true true 0 = none :=
  ⟨rfl, rfl, rfl⟩

/-- Claim C3 (code demonstration): sorting the well-formed queue `qDemoEqual`,
whose two distinct nodes (ids 1 and 2, in that chain order) carry equal
values, swaps them: the bottom-up driver passes the newer run as the
tie-preferred left argument of `__merge`, so the sort is not stable. -/
theorem c3_sort_not_stable :
    wellFormed qDemoEqual ∧
    ({ id := 1, value := some "a" } : list_ele_t).value =
      ({ id := 2, value := some "a" } : list_ele_t).value ∧
    q_sort cmp_zero (some qDemoEqual) =
      some { chain := [{ id := 2, value := some "a" }, { id := 1, value := some "a" }],
             tail := some 2, size := 2 } := by
  have harr : List.replicate 32 (none : Option (List list_ele_t)) =
      [none, none, none, none, none, none, none, none,
       none, none, none, none, none, none, none, none,
       none, none, none, none, none, none, none, none,
       none, none, none, none, none, none, none, none] := rfl
  have hcmp : __cmp_list_ele cmp_zero { id := 2, value := some "a" }
      { id := 1, value := some "a" } ≤ 0 := by decide
  refine ⟨by decide, rfl, ?_⟩
  simp [q_sort, qDemoEqual, __mergesort_bottomup, harr, __mergesort_scan,
        __mergesort_carry, __mergesort_collect, merge_singleton_pair, merge_nil_left, hcmp]

/-- Claim C4: for every well-formed queue and every comparator satisfying the
total-preorder contract, `q_sort` yields a queue whose chain is sorted
non-decreasingly under the node comparator and is a permutation of the input
chain — no node or value is created or destroyed. -/
theorem c4_sort_sorted_and_permutes (cmp : String → String → Int)
    (htot : ∀ a b, cmp a b ≤ 0 ∨ cmp b a ≤ 0)
    (htrans : ∀ a b c, cmp a b ≤ 0 → cmp b c ≤ 0 → cmp a c ≤ 0)
    (q : queue_t) (hwf : wellFormed q) :
    ∃ q', q_sort cmp (some q) = some q' ∧ ChainSorted cmp q'.chain ∧
      q'.chain.Perm q.chain := by
  obtain ⟨hsize, htl, hnodup, hval⟩ := hwf
  cases hchain : q.chain with
  | nil =>
    refine ⟨q, ?_, ?_, ?_⟩
    · simp [q_sort, hchain]
    · rw [hchain]
      try exact List.Pairwise.nil
    · rw [hchain]
      try exact List.Perm.refl _
  | cons h rest =>
    by_cases htail : q.tail = some h.id
    · have hrest : rest = [] := by
        by_contra hne
        obtain ⟨r, rs, hrr⟩ := List.exists_cons_of_ne_nil hne
        rw [htail, hchain, hrr] at htl
        rw [List.getLast?_cons_cons] at htl
        have hsome : (r :: rs).getLast? =
            some ((r :: rs).getLast (List.cons_ne_nil r rs)) :=
          Option.mem_def.mp (List.getLast_mem_getLast? (List.cons_ne_nil r rs))
        rw [hsome, Option.map_some'] at htl
        injection htl with htl
        have hmem : (r :: rs).getLast (List.cons_ne_nil r rs) ∈ r :: rs :=
          List.getLast_mem _
        rw [hchain, hrr, List.map_cons, List.nodup_cons] at hnodup
        exact hnodup.1 (by rw [htl]; exact List.mem_map_of_mem list_ele_t.id hmem)
      refine ⟨q, ?_, ?_, ?_⟩
      · simp [q_sort, hchain, htail]
      · rw [hchain, hrest]
        try exact List.pairwise_singleton _ _
      · rw [hchain]
        try exact List.Perm.refl _
    · refine ⟨{ q with chain := __mergesort_bottomup cmp (h :: rest) }, ?_, ?_, ?_⟩
      · simp [q_sort, hchain, htail]
      · exact mergesort_bottomup_sorted cmp htot htrans (h :: rest)
      · exact mergesort_bottomup_perm cmp (h :: rest)

/-- Claim C4 witness: the theorem applied to the concrete well-formed queue
`qDemoSort` under the length comparator. -/
theorem c4_sort_sorted_and_permutes_witness :
    wellFormed qDemoSort ∧
    ∃ q', q_sort cmp_len (some qDemoSort) = some q' ∧
      ChainSorted cmp_len q'.chain ∧ q'.chain.Perm qDemoSort.chain :=
  ⟨by decide,
   c4_sort_sorted_and_permutes cmp_len cmp_len_total cmp_len_trans qDemoSort (by decide)⟩

/-- Claim C5: `q_remove_head` returns false without touching the queue when
the queue pointer is NULL or the queue is empty (and `q_size` stays 0 on an
empty queue); on a non-empty queue it returns true, advances `head`, clears
`tail` exactly when the removed node was the one `tail` references, decrements
`size`, and — when a buffer is supplied — stores the removed value truncated
to `bufsize - 1` characters plus a terminator. -/
theorem c5_remove_head_spec (sp : Bool) (bufsize : Nat) :
    q_remove_head none sp bufsize = (none, false, none) ∧
    (∀ q : queue_t, q.chain = [] →
      q_remove_head (some q) sp bufsize = (some q, false, none) ∧ q_size (some q) = 0) ∧
    (∀ (q : queue_t) (x : list_ele_t) (rest : List list_ele_t) (v : String),
      q.chain = x :: rest → x.value = some v →
      q_remove_head (some q) sp bufsize =
        (some { chain := rest,
                tail := if q.tail = some x.id then none else q.tail,
                size := q.size - 1 }, true,
         if sp then some (strncpy_trunc v (size_t_minus_one bufsize)) else none) ∧
      (1 ≤ bufsize → bufsize ≤ SIZE_T_CARD - 1 →
        (strncpy_trunc v (size_t_minus_one bufsize)).length ≤ bufsize - 1)) := by
  refine ⟨rfl, ?_, ?_⟩
  · intro q hq
    exact ⟨by simp [q_remove_head, hq], by simp [q_size, hq]⟩
  · intro q x rest v hq hv
    constructor
    · simp [q_remove_head, hq, hv]
    · intro h1 h2
      have hidx : size_t_minus_one bufsize = bufsize - 1 := by
        unfold SIZE_T_CARD at h2
        unfold size_t_minus_one SIZE_T_CARD
        omega
      rw [hidx]
      have hlen : (strncpy_trunc v (bufsize - 1)).length =
          (v.data.take (bufsize - 1)).length := rfl
      rw [hlen, List.length_take]
      exact min_le_left _ _

/-- Claim C5 witness: removal from a concrete two-element queue with a
supplied buffer of declared size 3, truncating the value `"hello"`. -/
theorem c5_remove_head_spec_witness :
    q_remove_head
      (some { chain := [{ id := 0, value := some "hello" }, { id := 1, value := some "x" }],
              tail := some 1, size := 2 }) true 3 =
      (some { chain := [{ id := 1, value := some "x" }], tail := some 1, size := 1 },
       true, some "he") ∧
    (strncpy_trunc "hello" (size_t_minus_one 3)).length ≤ 3 - 1 := by
  have h := (c5_remove_head_spec true 3).2.2
    { chain := [{ id := 0, value := some "hello" }, { id := 1, value := some "x" }],
      tail := some 1, size := 2 }
    { id := 0, value := some "hello" } [{ id := 1, value := some "x" }] "hello" rfl rfl
  refine ⟨?_, h.2 (by norm_num) (by unfold SIZE_T_CARD; norm_num)⟩
  rw [h.1]
  decide

/-- Claim C6: the merge primitive, on two sorted chains (each possibly
empty), yields one sorted chain holding exactly the nodes of both, keeps each
input chain's internal order (each input is a sublist of the output), and on
ties emits the left (`a`) node before the right (`b`) node. -/
theorem c6_merge_spec (cmp : String → String → Int)
    (htot : ∀ a b, cmp a b ≤ 0 ∨ cmp b a ≤ 0)
    (htrans : ∀ a b c, cmp a b ≤ 0 → cmp b c ≤ 0 → cmp a c ≤ 0)
    (a b : List list_ele_t)
    (ha : ChainSorted cmp a) (hb : ChainSorted cmp b) :
    ChainSorted cmp (__merge cmp a b) ∧
    (__merge cmp a b).Perm (a ++ b) ∧
    a.Sublist (__merge cmp a b) ∧
    b.Sublist (__merge cmp a b) ∧
    (∀ x y, x ∈ a → y ∈ b → __cmp_list_ele cmp x y = 0 →
      [x, y].Sublist (__merge cmp a b)) :=
  ⟨merge_sorted cmp htot htrans a b ha hb, merge_perm cmp a b,
   merge_sublist_left cmp a b, merge_sublist_right cmp a b,
   fun x y hx hy hxy => merge_tie_pair cmp htrans a b ha x y hx hy (le_of_eq hxy)⟩

/-- Claim C6 witness: the theorem applied to two concrete sorted singleton
chains whose values tie under the length comparator. -/
theorem c6_merge_spec_witness :
    ChainSorted cmp_len [{ id := 0, value := some "a" }] ∧
    ChainSorted cmp_len [{ id := 1, value := some "b" }] ∧
    (ChainSorted cmp_len
       (__merge cmp_len [{ id := 0, value := some "a" }] [{ id := 1, value := some "b" }]) ∧
     (__merge cmp_len [{ id := 0, value := some "a" }]
        [{ id := 1, value := some "b" }]).Perm
       ([{ id := 0, value := some "a" }] ++ [{ id := 1, value := some "b" }]) ∧
     List.Sublist [{ id := 0, value := some "a" }]
       (__merge cmp_len [{ id := 0, value := some "a" }] [{ id := 1, value := some "b" }]) ∧
     List.Sublist [{ id := 1, value := some "b" }]
       (__merge cmp_len [{ id := 0, value := some "a" }] [{ id := 1, value := some "b" }]) ∧
     (∀ x y, x ∈ [({ id := 0, value := some "a" } : list_ele_t)] →
       y ∈ [({ id := 1, value := some "b" } : list_ele_t)] →
       __cmp_list_ele cmp_len x y = 0 →
       [x, y].Sublist
         (__merge cmp_len [{ id := 0, value := some "a" }] [{ id := 1, value := some "b" }]))) :=
  ⟨by simp, by simp,
   c6_merge_spec cmp_len cmp_len_total cmp_len_trans
     [{ id := 0, value := some "a" }] [{ id := 1, value := some "b" }] (by simp) (by simp)⟩

/-- Claim C7: reversal is an involution on the chain — one `q_reverse` makes
the chain exactly the reversed original (same nodes, only links rewritten)
and sets `tail` to the old head's identity; a second `q_reverse` restores the
original chain. -/
theorem c7_reverse_involution (q : queue_t) :
    (q_reverse (some q)).map queue_t.chain = some q.chain.reverse ∧
    (q_reverse (q_reverse (some q))).map queue_t.chain = some q.chain ∧
    (q_reverse (some q)).map queue_t.tail =
      some (if q.chain.isEmpty then q.tail else q.chain.head?.map list_ele_t.id) := by
  cases hchain : q.chain with
  | nil =>
    simp [q_reverse, hchain]
  | cons h rest =>
    have h1 : q_reverse (some q) =
        some { chain := (h :: rest).reverse, tail := some h.id, size := q.size } := by
      simp [q_reverse, hchain]
    refine ⟨by rw [h1]; rfl, ?_, by rw [h1]; simp⟩
    rw [h1]
    rcases hr : (h :: rest).reverse with _ | ⟨y, ys⟩
    · exact absurd hr (by simp)
    · simp only [q_reverse, hr, Option.map_some']
      rw [← hr, List.reverse_reverse]

/-- Claim C8 (code demonstration): the §8 round trip already fails at the
first step — inserting one value at the tail of a fresh empty queue
dereferences the NULL `tail` pointer, so no values ever come back. -/
theorem c8_round_trip_crashes : roundTrip ["a"] = none := rfl

/-- Claim C9 counterexample: the size bookkeeping property does not hold for
every operation sequence on a fresh queue — the single-operation sequence
`insert_tail "a"` crashes (NULL `tail` dereference), so no resulting queue
satisfies the size equation. -/
theorem c9_counterexample :
    ¬ ∃ out : queue_t × Nat × Nat,
      runOps [qop.insTail "a" true true] q_new 0 0 0 = some out ∧
      q_size (some out.1) = (out.2.1 : Int) - (out.2.2 : Int) := by
  rintro ⟨out, hrun, _⟩
  have hnone : runOps [qop.insTail "a" true true] q_new 0 0 0 = none := rfl
  rw [hnone] at hrun
  exact Option.noConfusion hrun

/-- Claim C9 (amended): along every operation sequence on a fresh queue whose
execution completes, `q_size` equals the number of successful inserts minus
the number of successful removals; and `q_size` of an absent queue is 0. -/
theorem c9_size_tracks_successful_ops (ops : List qop) (q' : queue_t) (ins rem : Nat)
    (hrun : runOps ops q_new 0 0 0 = some (q', ins, rem)) :
    q_size (some q') = (ins : Int) - (rem : Int) ∧ q_size none = 0 := by
  obtain ⟨ha, hb⟩ := runOps_size ops q_new 0 0 0 q' ins rem (by simp [q_new]) hrun
  have hb' : q'.size = (ins : Int) - (rem : Int) := by
    rw [hb]; push_cast [q_new]; ring
  refine ⟨?_, rfl⟩
  cases hc : q'.chain with
  | nil =>
    have h0 : q'.size = 0 := by rw [ha, hc]; rfl
    rw [show q_size (some q') = 0 from by simp [q_size, hc]]
    omega
  | cons z zs =>
    rw [show q_size (some q') = q'.size from by simp [q_size, hc]]
    exact hb'

/-- Claim C9 witness: a completing sequence — two head inserts and one
removal — on a fresh queue, with `q_size` equal to 2 - 1. -/
theorem c9_size_tracks_successful_ops_witness :
    runOps [qop.insHead "a" true true, qop.insHead "bb" true true, qop.remHead false 8]
      q_new 0 0 0 =
      some ({ chain := [{ id := 0, value := some "a" }], tail := some 0, size := 1 }, 2, 1) ∧
    q_size (some { chain := [{ id := 0, value := some "a" }], tail := some 0, size := 1 }) =
      (2 : Int) - (1 : Int) := by
  have h : runOps [qop.insHead "a" true true, qop.insHead "bb" true true, qop.remHead false 8]
      q_new 0 0 0 =
      some ({ chain := [{ id := 0, value := some "a" }], tail := some 0, size := 1 }, 2, 1) :=
    rfl
  exact ⟨h, (c9_size_tracks_successful_ops _ _ 2 1 h).1⟩

/-- Claim C10: with `out_capacity = 0` the copy length `out_capacity - 1`
wraps to `2^64 - 1` and the terminator index falls outside every
representable buffer, so the copy branch is safe only under
`out_capacity >= 1`; with `out_capacity >= 1` the terminator lands at index
`out_capacity - 1`, inside a buffer of that capacity. -/
theorem c10_zero_capacity_unsafe :
    size_t_minus_one 0 = SIZE_T_CARD - 1 ∧
    (∀ cap, cap ≤ SIZE_T_CARD - 1 → ¬ removeHeadCopySafe 0 cap) ∧
    (∀ bufsize, 1 ≤ bufsize → bufsize ≤ SIZE_T_CARD - 1 →
      size_t_minus_one bufsize = bufsize - 1 ∧ removeHeadCopySafe bufsize bufsize) := by
  refine ⟨?_, ?_, ?_⟩
  · unfold size_t_minus_one SIZE_T_CARD; norm_num
  · intro cap hcap hsafe
    unfold removeHeadCopySafe size_t_minus_one SIZE_T_CARD at hsafe
    unfold SIZE_T_CARD at hcap
    omega
  · intro bufsize h1 h2
    unfold SIZE_T_CARD at h2
    unfold removeHeadCopySafe size_t_minus_one SIZE_T_CARD
    constructor <;> omega

/-- Claim C10 witness: the zero-capacity branch is unsafe for a buffer of
capacity 100 and the `bufsize = 3` branch is safe. -/
theorem c10_zero_capacity_unsafe_witness :
    ((100 : Nat) ≤ SIZE_T_CARD - 1 ∧ 1 ≤ 3 ∧ (3 : Nat) ≤ SIZE_T_CARD - 1) ∧
    ¬ removeHeadCopySafe 0 100 ∧
    (size_t_minus_one 3 = 3 - 1 ∧ removeHeadCopySafe 3 3) := by
  have h100 : (100 : Nat) ≤ SIZE_T_CARD - 1 := by unfold SIZE_T_CARD; norm_num
  have h3 : (3 : Nat) ≤ SIZE_T_CARD - 1 := by unfold SIZE_T_CARD; norm_num
  exact ⟨⟨h100, by norm_num, h3⟩,
    c10_zero_capacity_unsafe.2.1 100 h100,
    c10_zero_capacity_unsafe.2.2 3 (by norm_num) h3⟩

end Lab0
